import Mathlib

/-!
# Ring buffer (`src/ringbuffer.hpp`)

Shallow embedding of the C++ template `ringbuffer<T>`.

* The heap array `buffer` is a `List α`; pointers into an array are offsets.
* `size_t` is an unsigned 64-bit integer: sums and differences are taken
  modulo `2 ^ 64` (`size_add`, `size_sub`).
* `memcpy` / `memset` outside the bounds of an array and `%` by zero are
  undefined behaviour in C++. The model gives such a call no result: it is an
  `.error` of `Except`, which says that C++ defines no outcome of the call
  (the program may trap, return any value or do anything else), not that the
  program stops.
* An allocated array has fewer than `2 ^ 63` elements (`PTRDIFF_MAX`), which
  is part of `Valid`.
-/

namespace RingBuffer

/-- Reasons why a call has undefined behaviour in C++. An `.error` with one of
them says that the language defines no outcome of the call: the program may
trap, return any value or do anything else. It does not say that the program
stops. -/
inductive Undefined where
  /-- Evaluation of `a % 0`. -/
  | remByZero
  /-- A `memcpy` / `memset` that leaves the bounds of an array. -/
  | outOfBounds
deriving DecidableEq

/-- Number of values of `size_t`. -/
def SIZE_MOD : Nat := 2 ^ 64

/-- Addition of two `size_t` values. -/
def size_add (a b : Nat) : Nat := (a + b) % SIZE_MOD

/-- Subtraction of two `size_t` values (`b < 2 ^ 64`), wrapping below zero. -/
def size_sub (a b : Nat) : Nat := (a + SIZE_MOD - b) % SIZE_MOD

/-- The `%` operator on `size_t`. For a divisor other than zero it is the
remainder. For the divisor zero C++ defines no behaviour, so the model has no
value for it: the `.error` stands for undefined behaviour, not for a trap. -/
def size_rem (a b : Nat) : Except Undefined Nat :=
  if b = 0 then .error .remByZero else .ok (a % b)

/-- The array `dst` with the `len` elements from offset `doff` on replaced by
the `len` elements of `src` from offset `soff` on. -/
def blit {α : Type} (dst : List α) (doff : Nat) (src : List α) (soff : Nat)
    (len : Nat) : List α :=
  dst.take doff ++ ((src.drop soff).take len ++ dst.drop (doff + len))

/-- The call `memcpy(dst + doff, src + soff, sizeof(T) * len)`, returning the
new contents of the array `dst`. -/
def memcpy {α : Type} (dst : List α) (doff : Nat) (src : List α) (soff : Nat)
    (len : Nat) : Except Undefined (List α) :=
  if doff + len ≤ dst.length ∧ soff + len ≤ src.length then
    .ok (blit dst doff src soff len)
  else
    .error .outOfBounds

/-- The call `memset(dst, 0, sizeof(T) * len)`, returning the new contents of
the array `dst`. -/
def memset {α : Type} [Zero α] (dst : List α) (len : Nat) : Except Undefined (List α) :=
  if len ≤ dst.length then
    .ok (List.replicate len 0 ++ dst.drop len)
  else
    .error .outOfBounds

end RingBuffer

/-- The private members of `ringbuffer<T>`. -/
structure ringbuffer (α : Type) where
  /-- The array `T *buffer`. -/
  buffer : List α
  /-- The member `size_t size`. -/
  size : Nat
  /-- The member `size_t write_pos`. -/
  write_pos : Nat
deriving DecidableEq

namespace ringbuffer

open RingBuffer

variable {α : Type}

/-- The constructor `ringbuffer(size_t size)`: `new T[size]`, then `memset`. -/
def create [Zero α] (size : Nat) : ringbuffer α :=
  { buffer := List.replicate size 0, size := size, write_pos := 0 }

/-- The member function `size_t write(const T *data, size_t n)`. -/
def write (s : ringbuffer α) (data : List α) (n : Nat) :
    Except Undefined (ringbuffer α × Nat) :=
  let n := min n s.size
  if n = 0 then
    .ok (s, n)
  else if size_add s.write_pos n ≥ s.size then do
    let first_chunk := size_sub s.size s.write_pos
    let b1 ← memcpy s.buffer s.write_pos data 0 first_chunk
    let b2 ← memcpy b1 0 data first_chunk (size_sub n first_chunk)
    let wp ← size_rem (size_add s.write_pos n) s.size
    .ok ({ s with buffer := b2, write_pos := wp }, n)
  else do
    let b1 ← memcpy s.buffer s.write_pos data 0 n
    .ok ({ s with buffer := b1, write_pos := size_add s.write_pos n }, n)

/-- The member function `size_t read(T *dest, size_t n)`; the result holds the
object after the call, the new contents of `dest` and the returned count. -/
def read (s : ringbuffer α) (dest : List α) (n : Nat) :
    Except Undefined (ringbuffer α × List α × Nat) := do
  let read_pos ← size_rem (size_sub (size_add s.write_pos s.size) n) s.size
  let n := min n s.size
  if n = 0 then
    .ok (s, dest, n)
  else if size_add read_pos n ≥ s.size then do
    let first_chunk := size_sub s.size read_pos
    let d1 ← memcpy dest 0 s.buffer read_pos first_chunk
    let d2 ← memcpy d1 first_chunk s.buffer 0 (size_sub n first_chunk)
    .ok (s, d2, n)
  else do
    let d1 ← memcpy dest 0 s.buffer read_pos n
    .ok (s, d1, n)

/-- The member function `void clear(void)`. -/
def clear [Zero α] (s : ringbuffer α) : Except Undefined (ringbuffer α) := do
  let b ← memset s.buffer s.size
  .ok { s with buffer := b }

/-- The states the claims speak about: the array `buffer` holds `size`
elements, `size` is positive, the cursor is an index of the array, and `size`
is below `2 ^ 63`, the bound on the length of an allocated array
(`PTRDIFF_MAX`), under which `write_pos + n` does not wrap. -/
def Valid (s : ringbuffer α) : Prop :=
  s.buffer.length = s.size ∧ 0 < s.size ∧ s.write_pos < s.size ∧ s.size < 2 ^ 63

/-! ## Auxiliary definitions used to state the claims -/

/-- The start index that `read` computes from the caller's `n`. -/
def readPos (s : ringbuffer α) (n : Nat) : Nat :=
  size_sub (size_add s.write_pos s.size) n % s.size

/-- Element `i` of `dest` after `m` elements were copied out of an array of
`c` slots from index `rp` on. -/
def readSlot (buf : List α) (rp c : Nat) (dest : List α) (m i : Nat) : Option α :=
  if i < m then (if rp + i < c then buf[rp + i]? else buf[rp + i - c]?)
  else dest[i]?

/-- Slot `j` of the array after `m` elements of `data` were stored from the
cursor `p` on in an array of `c` slots. -/
def writeSlot (buf : List α) (p c : Nat) (data : List α) (m j : Nat) : Option α :=
  if p ≤ j ∧ j < p + m ∧ j < c then data[j - p]?
  else if j + c < p + m then data[j + c - p]?
  else buf[j]?

/-- Index of the slot that is `a + 1` slots behind the cursor `p` in an array
of `c` slots. -/
def slotOfAge (p c a : Nat) : Nat :=
  if a < p then p - 1 - a else p + c - 1 - a

/-- The list `l` ends with what the slots behind the cursor hold: the slot
`a + 1` behind the cursor holds the element `a + 1` from the end of `l`. -/
def Recent (s : ringbuffer α) (l : List α) : Prop :=
  ∀ a, a < l.length → a < s.size →
    s.buffer[slotOfAge s.write_pos s.size a]? = l[l.length - 1 - a]?

/-- The calls `write(data, n)` of a list of pairs `(data, n)`, one after the
other. -/
def writeAll (s : ringbuffer α) : List (List α × Nat) → Except Undefined (ringbuffer α)
  | [] => .ok s
  | (data, n) :: calls => do
    let (s', _) ← write s data n
    writeAll s' calls

/-- The elements that a list of `write` calls stores in a buffer of capacity
`c`, in call order: the first `min n c` elements of each call. -/
def written (c : Nat) : List (List α × Nat) → List α
  | [] => []
  | (data, n) :: calls => data.take (min n c) ++ written c calls

/-- The loop that stores `data[i]` in slot `(p + i) % c` for `i = 0, ..., m - 1`,
one element at a time. -/
def naiveWrite (buf : List α) (p c : Nat) (data : List α) : Nat → List α
  | 0 => buf
  | i + 1 =>
    match data[i]? with
    | some x => (naiveWrite buf p c data i).set ((p + i) % c) x
    | none => naiveWrite buf p c data i

/-- The loop that reads slot `(rp + i) % c` into `dest[i]` for
`i = 0, ..., m - 1`, one element at a time. -/
def naiveRead (buf : List α) (rp c : Nat) (dest : List α) : Nat → List α
  | 0 => dest
  | i + 1 =>
    match buf[(rp + i) % c]? with
    | some x => (naiveRead buf rp c dest i).set i x
    | none => naiveRead buf rp c dest i

/-- A call of one of the member functions. -/
inductive Op (α : Type) where
  /-- The call `write(data, n)`. -/
  | write (data : List α) (n : Nat)
  /-- The call `read(dest, n)`. -/
  | read (dest : List α) (n : Nat)
  /-- The call `clear()`. -/
  | clear

/-- The object after one call. -/
def step [Zero α] (s : ringbuffer α) : Op α → Except Undefined (ringbuffer α)
  | .write data n => do
    let (s', _) ← write s data n
    .ok s'
  | .read dest n => do
    let (s', _, _) ← read s dest n
    .ok s'
  | .clear => clear s

/-- The object after a list of calls, one after the other. -/
def run [Zero α] (s : ringbuffer α) : List (Op α) → Except Undefined (ringbuffer α)
  | [] => .ok s
  | op :: ops => do
    let s' ← step s op
    run s' ops

/-- The caller's side of a call: the array passed to `write` or `read` holds
at least as many elements as the call copies in a buffer of capacity `c`. -/
def Op.Fits (c : Nat) : Op α → Prop
  | .write data n => min n c ≤ data.length
  | .read dest n => min n c ≤ dest.length
  | .clear => True

/-- Where a value stored in a buffer of capacity `c` may come from after the
calls `ops`: it is zero, or it is `data[i]` with `i < min n c` for a call
`write(data, n)` among `ops`. -/
def Provenance [Zero α] (c : Nat) (ops : List (Op α)) (x : α) : Prop :=
  x = 0 ∨ ∃ data n i, Op.write data n ∈ ops ∧ i < min n c ∧ data[i]? = some x

instance (c : Nat) (op : Op α) : Decidable (Op.Fits c op) := by
  cases op <;> unfold Op.Fits <;> infer_instance

end ringbuffer

open RingBuffer ringbuffer

/-! ## Arithmetic on `size_t` -/

namespace RingBuffer

theorem size_add_eq {a b : Nat} (h : a + b < 2 ^ 64) : size_add a b = a + b := by
  unfold size_add SIZE_MOD
  exact Nat.mod_eq_of_lt h

theorem size_sub_eq {a b : Nat} (hb : b ≤ a) (ha : a < 2 ^ 64) : size_sub a b = a - b := by
  unfold size_sub SIZE_MOD
  have h : a + 2 ^ 64 - b = (a - b) + 2 ^ 64 := by omega
  rw [h, Nat.add_mod_right]
  exact Nat.mod_eq_of_lt (by omega)

theorem size_rem_eq {a b : Nat} (hb : 0 < b) : size_rem a b = .ok (a % b) := by
  unfold size_rem
  rw [if_neg (by omega)]

/-- Reduction modulo `c` of a value below `2 * c`. -/
theorem mod_wrap {a c : Nat} (h : a < 2 * c) :
    a % c = if a < c then a else a - c := by
  split
  · exact Nat.mod_eq_of_lt (by assumption)
  · rw [Nat.mod_eq_sub_mod (by omega)]
    exact Nat.mod_eq_of_lt (by omega)

/-! ## `memcpy` and `memset` -/

section
variable {α : Type}

theorem memcpy_ok (dst src : List α) (doff soff len : Nat)
    (hd : doff + len ≤ dst.length) (hs : soff + len ≤ src.length) :
    memcpy dst doff src soff len = .ok (blit dst doff src soff len) := by
  unfold memcpy
  rw [if_pos ⟨hd, hs⟩]

theorem blit_length (dst src : List α) (doff soff len : Nat)
    (hd : doff + len ≤ dst.length) (hs : soff + len ≤ src.length) :
    (blit dst doff src soff len).length = dst.length := by
  unfold blit
  simp only [List.length_append, List.length_take, List.length_drop]
  omega

theorem blit_getElem? (dst src : List α) (doff soff len : Nat)
    (hd : doff + len ≤ dst.length) (hs : soff + len ≤ src.length) (j : Nat) :
    (blit dst doff src soff len)[j]?
      = if doff ≤ j ∧ j < doff + len then src[soff + (j - doff)]? else dst[j]? := by
  unfold blit
  have h1 : (dst.take doff).length = doff := by
    rw [List.length_take]; omega
  have h2 : ((src.drop soff).take len).length = len := by
    rw [List.length_take, List.length_drop]; omega
  by_cases hj : j < doff
  · rw [List.getElem?_append_left (by omega), if_neg (by omega), List.getElem?_take_of_lt hj]
  · rw [List.getElem?_append_right (by omega), h1]
    by_cases hj2 : j < doff + len
    · rw [List.getElem?_append_left (by omega), if_pos ⟨by omega, hj2⟩,
        List.getElem?_take_of_lt (by omega), List.getElem?_drop]
    · rw [List.getElem?_append_right (by omega), h2, if_neg (by omega),
        List.getElem?_drop]
      congr 1
      omega

end

end RingBuffer

namespace ringbuffer

variable {α : Type}

/-! ## The effect of `write` and `read`, slot by slot -/

theorem write_spec (s : ringbuffer α) (hv : Valid s) (data : List α) (n : Nat)
    (hd : min n s.size ≤ data.length) :
    ∃ b, write s data n
        = .ok (⟨b, s.size, (s.write_pos + min n s.size) % s.size⟩, min n s.size)
      ∧ b.length = s.size
      ∧ ∀ j, b[j]? = writeSlot s.buffer s.write_pos s.size data (min n s.size) j := by
  obtain ⟨hl, hpos, hp, hC⟩ := hv
  have hm : min n s.size ≤ s.size := min_le_right _ _
  unfold write
  simp only []
  generalize min n s.size = m at hd hm ⊢
  have hadd : size_add s.write_pos m = s.write_pos + m := size_add_eq (by omega)
  by_cases hm0 : m = 0
  · subst hm0
    refine ⟨s.buffer, ?_, hl, ?_⟩
    · rw [if_pos rfl, Nat.add_zero, Nat.mod_eq_of_lt hp]
    · intro j
      unfold writeSlot
      rw [if_neg (by omega), if_neg (by omega)]
  · rw [if_neg hm0, hadd]
    by_cases hw : s.write_pos + m ≥ s.size
    · have hfc : size_sub s.size s.write_pos = s.size - s.write_pos :=
        size_sub_eq (by omega) (by omega)
      have hrest : size_sub m (s.size - s.write_pos) = m - (s.size - s.write_pos) :=
        size_sub_eq (by omega) (by omega)
      have hl1 : (blit s.buffer s.write_pos data 0 (s.size - s.write_pos)).length
          = s.buffer.length := blit_length _ _ _ _ _ (by omega) (by omega)
      rw [if_pos hw, hfc, hrest, memcpy_ok _ _ _ _ _ (by omega) (by omega)]
      simp only [bind, Except.bind]
      rw [memcpy_ok _ _ _ _ _ (by omega) (by omega), size_rem_eq hpos]
      refine ⟨_, rfl, ?_, ?_⟩
      · rw [blit_length _ _ _ _ _ (by omega) (by omega), hl1, hl]
      · intro j
        rw [blit_getElem? _ _ _ _ _ (by omega) (by omega),
          blit_getElem? _ _ _ _ _ (by omega) (by omega)]
        unfold writeSlot
        by_cases h1 : s.write_pos ≤ j ∧ j < s.write_pos + m ∧ j < s.size
        · rw [if_pos h1, if_neg (by omega), if_pos (by omega)]
          congr 1
          omega
        · rw [if_neg h1]
          by_cases h3 : j + s.size < s.write_pos + m
          · rw [if_pos h3, if_pos (by omega)]
            congr 1
            omega
          · rw [if_neg h3, if_neg (by omega), if_neg (by omega)]
    · rw [if_neg hw, memcpy_ok _ _ _ _ _ (by omega) (by omega)]
      simp only [bind, Except.bind]
      rw [Nat.mod_eq_of_lt (by omega)]
      refine ⟨_, rfl, ?_, ?_⟩
      · rw [blit_length _ _ _ _ _ (by omega) (by omega), hl]
      · intro j
        rw [blit_getElem? _ _ _ _ _ (by omega) (by omega)]
        unfold writeSlot
        by_cases h1 : s.write_pos ≤ j ∧ j < s.write_pos + m
        · rw [if_pos h1, if_pos (by omega)]
          congr 1
          omega
        · rw [if_neg h1, if_neg (by omega), if_neg (by omega)]

theorem readPos_lt (s : ringbuffer α) (hv : Valid s) (n : Nat) : readPos s n < s.size :=
  Nat.mod_lt _ hv.2.1

theorem readPos_eq (s : ringbuffer α) (hv : Valid s) (n : Nat) (hn : n ≤ s.size) :
    readPos s n = (s.write_pos + s.size - n) % s.size := by
  obtain ⟨_, _, hp, hC⟩ := hv
  unfold readPos
  rw [size_add_eq (by omega), size_sub_eq (by omega) (by omega)]

theorem read_spec (s : ringbuffer α) (hv : Valid s) (dest : List α) (n : Nat)
    (hd : min n s.size ≤ dest.length) :
    ∃ d, read s dest n = .ok (s, d, min n s.size)
      ∧ d.length = dest.length
      ∧ ∀ i, d[i]? = readSlot s.buffer (readPos s n) s.size dest (min n s.size) i := by
  have hrp := readPos_lt s hv n
  obtain ⟨hl, hpos, hp, hC⟩ := hv
  have hm : min n s.size ≤ s.size := min_le_right _ _
  have hdef : size_sub (size_add s.write_pos s.size) n % s.size = readPos s n := rfl
  unfold read
  rw [size_rem_eq hpos]
  simp only [bind, Except.bind, hdef]
  generalize min n s.size = m at hd hm ⊢
  generalize readPos s n = rp at hrp ⊢
  have hadd : size_add rp m = rp + m := size_add_eq (by omega)
  by_cases hm0 : m = 0
  · subst hm0
    refine ⟨dest, ?_, rfl, ?_⟩
    · rw [if_pos rfl]
    · intro i
      unfold readSlot
      rw [if_neg (by omega)]
  · rw [if_neg hm0, hadd]
    by_cases hw : rp + m ≥ s.size
    · have hfc : size_sub s.size rp = s.size - rp := size_sub_eq (by omega) (by omega)
      have hrest : size_sub m (s.size - rp) = m - (s.size - rp) :=
        size_sub_eq (by omega) (by omega)
      have hl1 : (blit dest 0 s.buffer rp (s.size - rp)).length = dest.length :=
        blit_length _ _ _ _ _ (by omega) (by omega)
      rw [if_pos hw, hfc, hrest, memcpy_ok _ _ _ _ _ (by omega) (by omega)]
      simp only []
      rw [memcpy_ok _ _ _ _ _ (by omega) (by omega)]
      refine ⟨_, rfl, ?_, ?_⟩
      · rw [blit_length _ _ _ _ _ (by omega) (by omega), hl1]
      · intro i
        rw [blit_getElem? _ _ _ _ _ (by omega) (by omega),
          blit_getElem? _ _ _ _ _ (by omega) (by omega)]
        unfold readSlot
        by_cases h1 : i < m
        · rw [if_pos h1]
          by_cases h2 : rp + i < s.size
          · rw [if_pos h2, if_neg (by omega), if_pos (by omega)]
            congr 1
          · rw [if_neg h2, if_pos (by omega)]
            congr 1
            omega
        · rw [if_neg h1, if_neg (by omega), if_neg (by omega)]
    · rw [if_neg hw, memcpy_ok _ _ _ _ _ (by omega) (by omega)]
      refine ⟨_, rfl, ?_, ?_⟩
      · rw [blit_length _ _ _ _ _ (by omega) (by omega)]
      · intro i
        rw [blit_getElem? _ _ _ _ _ (by omega) (by omega)]
        unfold readSlot
        by_cases h1 : i < m
        · rw [if_pos h1, if_pos (by omega), if_pos (by omega)]
          congr 1
        · rw [if_neg h1, if_neg (by omega)]

/-! ## The elements most recently written -/

theorem slotOfAge_mod {p c a : Nat} (hp : p < c) (ha : a < c) :
    slotOfAge p c a = (p + c - 1 - a) % c := by
  unfold slotOfAge
  rw [mod_wrap (by omega)]
  split_ifs <;> omega

theorem writeSlot_new (buf data : List α) {p c m a : Nat} (hp : p < c) (hm : m ≤ c)
    (ha : a < m) :
    writeSlot buf p c data m (slotOfAge ((p + m) % c) c a) = data[m - 1 - a]? := by
  unfold writeSlot slotOfAge
  rw [mod_wrap (by omega)]
  split_ifs <;> first | omega | (congr 1; omega)

theorem slotOfAge_old {p c m a : Nat} (hp : p < c) (hm : m ≤ c) (ha : m ≤ a)
    (hac : a < c) :
    slotOfAge ((p + m) % c) c a = slotOfAge p c (a - m) := by
  unfold slotOfAge
  rw [mod_wrap (by omega)]
  split_ifs <;> omega

theorem writeSlot_old (buf data : List α) {p c m a : Nat} (ha : a + m < c) :
    writeSlot buf p c data m (slotOfAge p c a) = buf[slotOfAge p c a]? := by
  unfold writeSlot slotOfAge
  split_ifs <;> first | omega | rfl

theorem recent_nil (s : ringbuffer α) : Recent s [] := by
  intro a ha
  simp at ha

theorem write_recent (s : ringbuffer α) (hv : Valid s) (l data : List α) (n : Nat)
    (hd : min n s.size ≤ data.length) (hr : Recent s l) :
    ∃ s', write s data n = .ok (s', min n s.size) ∧ Valid s' ∧ s'.size = s.size
      ∧ Recent s' (l ++ data.take (min n s.size)) := by
  obtain ⟨b, hw, hbl, hb⟩ := write_spec s hv data n hd
  obtain ⟨hl, hpos, hp, hC⟩ := hv
  have hm : min n s.size ≤ s.size := min_le_right _ _
  refine ⟨_, hw, ⟨hbl, hpos, Nat.mod_lt _ hpos, hC⟩, rfl, ?_⟩
  generalize min n s.size = m at hd hm hb ⊢
  intro a ha hac
  have hlen : (data.take m).length = m := by
    rw [List.length_take]; omega
  rw [List.length_append, hlen] at ha ⊢
  change b[slotOfAge ((s.write_pos + m) % s.size) s.size a]? = _
  change a < s.size at hac
  rw [hb]
  by_cases ham : a < m
  · rw [writeSlot_new _ _ hp hm ham, List.getElem?_append_right (by omega),
      List.getElem?_take_of_lt (by omega)]
    congr 1
    omega
  · rw [slotOfAge_old hp hm (by omega) hac, writeSlot_old _ _ (by omega),
      hr (a - m) (by omega) (by omega), List.getElem?_append_left (by omega)]
    congr 1
    omega

theorem readSlot_age (buf dest : List α) {p c k i : Nat} (hp : p < c) (hk : k ≤ c)
    (hi : i < k) :
    readSlot buf ((p + c - k) % c) c dest k i = buf[slotOfAge p c (k - 1 - i)]? := by
  unfold readSlot slotOfAge
  rw [mod_wrap (by omega)]
  split_ifs <;> first | omega | (congr 1; omega)

theorem read_recent (s : ringbuffer α) (hv : Valid s) (l dest : List α) (k : Nat)
    (hk : k ≤ s.size) (hkl : k ≤ l.length) (hd : k ≤ dest.length) (hr : Recent s l) :
    read s dest k = .ok (s, l.drop (l.length - k) ++ dest.drop k, k) := by
  have hmin : min k s.size = k := min_eq_left hk
  obtain ⟨d, hrd, _, hslot⟩ := read_spec s hv dest k (by omega)
  rw [hmin, readPos_eq s hv k hk] at hslot
  rw [hrd, hmin]
  have hp := hv.2.2.1
  have hlen : (l.drop (l.length - k)).length = k := by
    rw [List.length_drop]; omega
  have hd' : d = l.drop (l.length - k) ++ dest.drop k := by
    apply List.ext_getElem?
    intro i
    rw [hslot]
    by_cases hi : i < k
    · rw [readSlot_age _ _ hp hk hi, hr _ (by omega) (by omega),
        List.getElem?_append_left (by omega), List.getElem?_drop]
      congr 1
      omega
    · unfold readSlot
      rw [if_neg hi, List.getElem?_append_right (by omega), hlen, List.getElem?_drop]
      congr 1
      omega
  rw [hd']

/-! ## Sequences of `write` calls -/

theorem writeAll_recent (calls : List (List α × Nat)) :
    ∀ (s : ringbuffer α) (l : List α), Valid s → Recent s l →
      (∀ dn ∈ calls, min dn.2 s.size ≤ dn.1.length) →
      ∃ s', writeAll s calls = .ok s' ∧ Valid s' ∧ s'.size = s.size
        ∧ Recent s' (l ++ written s.size calls) := by
  induction calls with
  | nil =>
    intro s l hv hr _
    refine ⟨s, rfl, hv, rfl, ?_⟩
    simpa [written] using hr
  | cons dn calls ih =>
    intro s l hv hr hc
    obtain ⟨data, n⟩ := dn
    obtain ⟨s1, hw, hv1, hs1, hr1⟩ :=
      write_recent s hv l data n (hc (data, n) (List.mem_cons_self _ _)) hr
    obtain ⟨s2, hw2, hv2, hs2, hr2⟩ := ih s1 _ hv1 hr1 (by
      intro dn hdn
      rw [hs1]
      exact hc dn (List.mem_cons_of_mem _ hdn))
    refine ⟨s2, ?_, hv2, by rw [hs2, hs1], ?_⟩
    · simp only [writeAll, hw, bind, Except.bind]
      exact hw2
    · rw [hs1, List.append_assoc] at hr2
      exact hr2

theorem valid_create [Zero α] (c : Nat) (h0 : 0 < c) (hc : c < 2 ^ 63) :
    Valid (create c : ringbuffer α) :=
  ⟨List.length_replicate _ _, h0, h0, hc⟩

theorem writeSlot_at (buf data : List α) {p c m i : Nat} (hp : p < c) (hm : m ≤ c)
    (hi : i < m) :
    writeSlot buf p c data m ((p + i) % c) = data[i]? := by
  unfold writeSlot
  rw [mod_wrap (by omega)]
  split_ifs <;> first | omega | (congr 1; omega)

theorem writeSlot_frame (buf data : List α) {p c m j : Nat} (hp : p < c) (hm : m ≤ c)
    (hj : ∀ i, i < m → j ≠ (p + i) % c) :
    writeSlot buf p c data m j = buf[j]? := by
  unfold writeSlot
  split_ifs with h1 h2
  · exfalso
    apply hj (j - p) (by omega)
    rw [mod_wrap (by omega), if_pos (by omega)]
    omega
  · exfalso
    apply hj (j + c - p) (by omega)
    rw [mod_wrap (by omega), if_neg (by omega)]
    omega
  · rfl

/-! ## The claims -/

/-- C1: from a valid state, after any finite sequence of `write` calls (each
with at least `n` elements of data), `read(dest, k)` with `k ≤ capacity` and
`k` at most the number of elements written returns `k` and fills `dest[0..k)`
with the last `k` elements written, in their original order; the rest of
`dest` is left as it was. -/
theorem read_last_written (s : ringbuffer α) (hv : Valid s)
    (calls : List (List α × Nat)) (hcalls : ∀ dn ∈ calls, dn.2 ≤ dn.1.length)
    (dest : List α) (k : Nat) (hk : k ≤ s.size)
    (hkw : k ≤ (written s.size calls).length) (hd : k ≤ dest.length) :
    ∃ s', writeAll s calls = .ok s' ∧
      read s' dest k
        = .ok (s', (written s.size calls).drop ((written s.size calls).length - k)
            ++ dest.drop k, k) := by
  obtain ⟨s', hw, hv', hs', hr⟩ := writeAll_recent calls s [] hv (recent_nil s)
    (fun dn hdn => le_trans (min_le_left _ _) (hcalls dn hdn))
  rw [List.nil_append] at hr
  exact ⟨s', hw, read_recent s' hv' _ dest k (by omega) hkw hd hr⟩

/-- Witness of C1: capacity 4, `write [1,2,3,4]` then `write [5,6]`; `read(4)`
gives `[3,4,5,6]`. -/
theorem read_last_written_witness :
    ∃ s', writeAll (create 4 : ringbuffer Nat) [([1, 2, 3, 4], 4), ([5, 6], 2)] = .ok s' ∧
      read s' [0, 0, 0, 0] 4 = .ok (s', [3, 4, 5, 6], 4) :=
  read_last_written (create 4) (valid_create 4 (by decide) (by norm_num))
    [([1, 2, 3, 4], 4), ([5, 6], 2)] (by decide) [0, 0, 0, 0] 4 (by decide) (by decide)
    (by decide)

/-- C2 (the code at the failing input): capacity 4, `write [1,2,3,4]` then
`write [5,6]`. `read(dest, 5)` returns 4 but fills `dest` with `[6,3,4,5]`, the
window that starts at index `(2 + 4 - 5) % 4 = 1`, while `read(dest, 4)` on the
same state gives `[3,4,5,6]`. -/
theorem read_oversized_differs :
    ∃ s, writeAll (create 4 : ringbuffer Nat) [([1, 2, 3, 4], 4), ([5, 6], 2)] = .ok s ∧
      Valid s ∧
      read s [0, 0, 0, 0, 0] 5 = .ok (s, [6, 3, 4, 5, 0], 4) ∧
      read s [0, 0, 0, 0, 0] 4 = .ok (s, [3, 4, 5, 6, 0], 4) :=
  ⟨⟨[5, 6, 3, 4], 4, 2⟩, rfl, ⟨rfl, by decide, by decide, by norm_num⟩, rfl, rfl⟩

/-- C3: on a valid state, `write(data, n)` with `n > capacity` and at least
`n` elements of data is the call `write(data, capacity)`: it returns
`capacity`, leaves `write_pos` where it was, stores `data[i]` for
`i < capacity` in slot `(write_pos + i) % capacity` (so no element of index
`≥ capacity` is stored, and the result is that of writing `data[0..capacity)`
alone), and a following `read(dest, capacity)` gives `data[0..capacity)` in
order. -/
theorem write_oversized (s : ringbuffer α) (hv : Valid s) (data : List α) (n : Nat)
    (hn : s.size < n) (hd : n ≤ data.length) (dest : List α)
    (hdest : s.size ≤ dest.length) :
    write s data n = write s data s.size ∧
    ∃ s', write s data n = .ok (s', s.size) ∧
      write s (data.take s.size) s.size = .ok (s', s.size) ∧
      s'.size = s.size ∧ s'.write_pos = s.write_pos ∧
      s'.buffer.length = s.size ∧
      (∀ i, i < s.size → s'.buffer[(s.write_pos + i) % s.size]? = data[i]?) ∧
      read s' dest s.size = .ok (s', data.take s.size ++ dest.drop s.size, s.size) := by
  have hmin : min n s.size = s.size := min_eq_right (le_of_lt hn)
  have hself : min s.size s.size = s.size := min_self _
  have hp := hv.2.2.1
  have e1 : write s data n = write s data s.size := by
    unfold write
    simp only [hmin, hself]
  refine ⟨e1, ?_⟩
  obtain ⟨s', hw, hv', hs', hr⟩ := write_recent s hv [] data n (by omega) (recent_nil s)
  obtain ⟨b, hwb, hbl, hb⟩ := write_spec s hv data n (by omega)
  obtain ⟨b2, hwb2, hbl2, hb2⟩ := write_spec s hv (data.take s.size) s.size (by
    rw [hself, List.length_take]; omega)
  rw [hmin] at hw hwb hb hr
  rw [hself] at hwb2 hb2
  rw [List.nil_append] at hr
  have hwp : (s.write_pos + s.size) % s.size = s.write_pos := by
    rw [Nat.add_mod_right, Nat.mod_eq_of_lt hp]
  have hs'eq : s' = ⟨b, s.size, s.write_pos⟩ := by
    have h := hw.symm.trans hwb
    rw [hwp] at h
    injection h with h
    injection h with h
  have hbb : b2 = b := by
    apply List.ext_getElem?
    intro j
    rw [hb, hb2]
    unfold writeSlot
    split_ifs with h1 h2
    · rw [List.getElem?_take_of_lt (by omega)]
    · rw [List.getElem?_take_of_lt (by omega)]
    · rfl
  refine ⟨s', hw, ?_, hs', ?_, ?_, ?_, ?_⟩
  · rw [hwb2, hbb, hwp, hs'eq]
  · rw [hs'eq]
  · rw [hs'eq]
    exact hbl
  · intro i hi
    rw [hs'eq]
    change b[(s.write_pos + i) % s.size]? = _
    rw [hb, writeSlot_at _ _ hp (le_refl _) hi]
  · have h := read_recent s' hv' (data.take s.size) dest s.size (by omega)
      (by rw [List.length_take]; omega) (by omega) hr
    rw [List.length_take, min_eq_left (by omega), Nat.sub_self, List.drop_zero] at h
    exact h

/-- Witness of C3: a fresh buffer of capacity 3, `write([1,2,3,4,5], 5)`
returns 3 and `read(3)` gives `[1,2,3]`. -/
theorem write_oversized_witness :
    write (create 3 : ringbuffer Nat) [1, 2, 3, 4, 5] 5
      = write (create 3) [1, 2, 3, 4, 5] 3 ∧
    ∃ s', write (create 3 : ringbuffer Nat) [1, 2, 3, 4, 5] 5 = .ok (s', 3) ∧
      write (create 3 : ringbuffer Nat) [1, 2, 3] 3 = .ok (s', 3) ∧
      s'.size = 3 ∧ s'.write_pos = 0 ∧
      s'.buffer.length = 3 ∧
      (∀ i, i < 3 → s'.buffer[(0 + i) % 3]? = [1, 2, 3, 4, 5][i]?) ∧
      read s' [0, 0, 0] 3 = .ok (s', [1, 2, 3], 3) :=
  write_oversized (create 3) (valid_create 3 (by decide) (by norm_num))
    [1, 2, 3, 4, 5] 5 (by decide) (by decide) [0, 0, 0] (by decide)

theorem readSlot_mod (buf dest : List α) {rp c m i : Nat} (hrp : rp < c) (hm : m ≤ c)
    (hi : i < m) :
    readSlot buf rp c dest m i = buf[(rp + i) % c]? := by
  unfold readSlot
  rw [mod_wrap (by omega), if_pos hi]
  split_ifs <;> rfl

/-- C4: on a valid state, `write(data, n)` returns `min n capacity` and
`read(dest, n)` returns `min n capacity`, for every `n`; when `n > capacity`
that count is `capacity` and not `n`. `read` copies that many elements:
`dest[i]` for `i` below the count becomes the slot `(read_pos + i) % capacity`
of the storage, and `dest[i]` from the count on is left as it was. -/
theorem counts_clamped (s : ringbuffer α) (hv : Valid s) (data dest : List α) (n : Nat)
    (hdata : min n s.size ≤ data.length) (hdest : min n s.size ≤ dest.length) :
    (∃ s', write s data n = .ok (s', min n s.size)) ∧
    (∃ d, read s dest n = .ok (s, d, min n s.size) ∧ d.length = dest.length ∧
      (∀ i, i < min n s.size → d[i]? = s.buffer[(readPos s n + i) % s.size]?) ∧
      (∀ i, min n s.size ≤ i → d[i]? = dest[i]?)) ∧
    (s.size < n → min n s.size = s.size ∧ min n s.size ≠ n) := by
  obtain ⟨b, hw, _, _⟩ := write_spec s hv data n hdata
  obtain ⟨d, hr, hdl, hslot⟩ := read_spec s hv dest n hdest
  refine ⟨⟨_, hw⟩, ⟨d, hr, hdl, ?_, ?_⟩, ?_⟩
  · intro i hi
    rw [hslot, readSlot_mod _ _ (readPos_lt s hv n) (min_le_right _ _) hi]
  · intro i hi
    rw [hslot]
    unfold readSlot
    rw [if_neg (by omega)]
  · intro hn
    rw [min_eq_right (le_of_lt hn)]
    exact ⟨rfl, by omega⟩

/-- Witness of C4: capacity 4 with cursor 2 and storage `[5,6,3,4]`, `n = 7`. -/
theorem counts_clamped_witness :
    (∃ s', write (⟨[5, 6, 3, 4], 4, 2⟩ : ringbuffer Nat) [1, 2, 3, 4, 5, 6, 7] 7
        = .ok (s', 4)) ∧
    (∃ d, read (⟨[5, 6, 3, 4], 4, 2⟩ : ringbuffer Nat) [0, 0, 0, 0, 0] 7
          = .ok (⟨[5, 6, 3, 4], 4, 2⟩, d, 4) ∧ d.length = 5 ∧
      (∀ i, i < 4 → d[i]? = [5, 6, 3, 4][(readPos ⟨[5, 6, 3, 4], 4, 2⟩ 7 + i) % 4]?) ∧
      (∀ i, 4 ≤ i → d[i]? = [0, 0, 0, 0, 0][i]?)) ∧
    (4 < 7 → min 7 4 = 4 ∧ min 7 4 ≠ 7) :=
  counts_clamped ⟨[5, 6, 3, 4], 4, 2⟩ ⟨rfl, by decide, by decide, by norm_num⟩
    [1, 2, 3, 4, 5, 6, 7] [0, 0, 0, 0, 0] 7 (by decide) (by decide)

theorem clear_spec [Zero α] (s : ringbuffer α) (hv : Valid s) :
    clear s = .ok ⟨List.replicate s.size 0, s.size, s.write_pos⟩ := by
  unfold clear memset
  rw [if_pos (by rw [hv.1])]
  simp only [bind, Except.bind]
  rw [List.drop_eq_nil_of_le (by rw [hv.1]), List.append_nil]

theorem step_valid [Zero α] (s : ringbuffer α) (hv : Valid s) (op : Op α)
    (hop : op.Fits s.size) :
    ∃ s', step s op = .ok s' ∧ Valid s' ∧ s'.size = s.size := by
  cases op with
  | write data n =>
    obtain ⟨s', hw, hv', hs', _⟩ := write_recent s hv [] data n hop (recent_nil s)
    exact ⟨s', by simp only [step, hw, bind, Except.bind], hv', hs'⟩
  | read dest n =>
    obtain ⟨d, hr, _, _⟩ := read_spec s hv dest n hop
    exact ⟨s, by simp only [step, hr, bind, Except.bind], hv, rfl⟩
  | clear =>
    exact ⟨⟨List.replicate s.size 0, s.size, s.write_pos⟩,
      by simp only [step, clear_spec s hv],
      ⟨List.length_replicate _ _, hv.2.1, hv.2.2.1, hv.2.2.2⟩, rfl⟩

theorem run_valid [Zero α] (ops : List (Op α)) :
    ∀ s : ringbuffer α, Valid s → (∀ op ∈ ops, Op.Fits s.size op) →
      ∃ s', run s ops = .ok s' ∧ Valid s' ∧ s'.size = s.size := by
  induction ops with
  | nil =>
    intro s hv _
    exact ⟨s, rfl, hv, rfl⟩
  | cons op ops ih =>
    intro s hv hops
    obtain ⟨s1, h1, hv1, hs1⟩ := step_valid s hv op (hops op (List.mem_cons_self _ _))
    obtain ⟨s2, h2, hv2, hs2⟩ := ih s1 hv1 (by
      intro o ho
      rw [hs1]
      exact hops o (List.mem_cons_of_mem _ ho))
    refine ⟨s2, ?_, hv2, by rw [hs2, hs1]⟩
    simp only [run, h1, bind, Except.bind]
    exact h2

/-- C5: for a capacity `c` with `0 < c` (and below `2 ^ 63`, as every
allocated array is), construction gives `write_pos = 0 < c` and a storage of
length `c`; each call of `write`, `read` or `clear` on a state with
`write_pos < capacity` and storage length `capacity` returns and gives such a
state again, with the same capacity; hence so does every sequence of calls
from construction. -/
theorem state_invariant [Zero α] (c : Nat) (h0 : 0 < c) (hc : c < 2 ^ 63) :
    ((create c : ringbuffer α).write_pos = 0 ∧ (create c : ringbuffer α).size = c ∧
      (create c : ringbuffer α).buffer.length = c ∧ Valid (create c : ringbuffer α)) ∧
    (∀ (s : ringbuffer α) (op : Op α), Valid s → op.Fits s.size →
      ∃ s', step s op = .ok s' ∧ s'.write_pos < s'.size ∧
        s'.buffer.length = s'.size ∧ s'.size = s.size ∧ Valid s') ∧
    (∀ ops : List (Op α), (∀ op ∈ ops, Op.Fits c op) →
      ∃ s', run (create c : ringbuffer α) ops = .ok s' ∧ s'.write_pos < c ∧
        s'.buffer.length = c ∧ s'.size = c ∧ Valid s') := by
  have hv := valid_create (α := α) c h0 hc
  refine ⟨⟨rfl, rfl, List.length_replicate _ _, hv⟩, ?_, ?_⟩
  · intro s op hs hop
    obtain ⟨s', h, hv', hs'⟩ := step_valid s hs op hop
    exact ⟨s', h, hv'.2.2.1, hv'.1, hs', hv'⟩
  · intro ops hops
    obtain ⟨s', h, hv', hs'⟩ := run_valid ops (create c) hv hops
    have hs'' : s'.size = c := hs'
    refine ⟨s', h, ?_, ?_, hs'', hv'⟩
    · rw [← hs'']
      exact hv'.2.2.1
    · rw [← hs'']
      exact hv'.1

/-- Witness of C5: capacity 4, then `write`, `read`, `clear` and an oversized
`write`. -/
theorem state_invariant_witness :
    Valid (create 4 : ringbuffer Nat) ∧
    ∃ s', run (create 4 : ringbuffer Nat)
        [.write [1, 2, 3] 3, .read [0, 0] 2, .clear, .write [4, 5, 6, 7, 8] 5] = .ok s' ∧
      s'.write_pos < 4 ∧ s'.buffer.length = 4 ∧ s'.size = 4 ∧ Valid s' :=
  ⟨(state_invariant 4 (by decide) (by norm_num)).1.2.2.2,
    (state_invariant 4 (by decide) (by norm_num)).2.2 _ (by decide)⟩

/-- C6: on a valid state with cursor `p`, `write(data, n)` returns and leaves
the cursor at `(p + min n capacity) % capacity`, for every `n`: this is the
value in the branch `p + n ≥ capacity` and in the other branch. -/
theorem write_cursor (s : ringbuffer α) (hv : Valid s) (data : List α) (n : Nat)
    (hd : min n s.size ≤ data.length) :
    ∃ s', write s data n = .ok (s', min n s.size) ∧
      s'.write_pos = (s.write_pos + min n s.size) % s.size ∧
      (s.write_pos + min n s.size < s.size →
        s'.write_pos = s.write_pos + min n s.size) ∧
      (s.size ≤ s.write_pos + min n s.size →
        s'.write_pos = s.write_pos + min n s.size - s.size) := by
  obtain ⟨b, hw, _, _⟩ := write_spec s hv data n hd
  have hp := hv.2.2.1
  have hm : min n s.size ≤ s.size := min_le_right _ _
  refine ⟨_, hw, rfl, ?_, ?_⟩
  · intro h
    exact Nat.mod_eq_of_lt h
  · intro h
    change (s.write_pos + min n s.size) % s.size = _
    rw [mod_wrap (by omega), if_neg (by omega)]

/-- Witness of C6: capacity 4 with cursor 2, a `write` of 3 elements wraps the
cursor to 1. -/
theorem write_cursor_witness :
    ∃ s', write (⟨[5, 6, 3, 4], 4, 2⟩ : ringbuffer Nat) [7, 8, 9] 3 = .ok (s', 3) ∧
      s'.write_pos = (2 + 3) % 4 ∧
      (2 + 3 < 4 → s'.write_pos = 2 + 3) ∧
      (4 ≤ 2 + 3 → s'.write_pos = 2 + 3 - 4) :=
  write_cursor ⟨[5, 6, 3, 4], 4, 2⟩ ⟨rfl, by decide, by decide, by norm_num⟩
    [7, 8, 9] 3 (by decide)

theorem naiveWrite_length (buf data : List α) (p c : Nat) :
    ∀ m, (naiveWrite buf p c data m).length = buf.length := by
  intro m
  induction m with
  | zero => rfl
  | succ m ih =>
    unfold naiveWrite
    split
    · rw [List.length_set, ih]
    · exact ih

theorem writeSlot_succ (buf data : List α) {p c m : Nat} (hp : p < c) (hm : m < c)
    (hd : m < data.length) (j : Nat) :
    writeSlot buf p c data (m + 1) j
      = if (p + m) % c = j then some data[m] else writeSlot buf p c data m j := by
  unfold writeSlot
  rw [mod_wrap (by omega)]
  split_ifs <;>
    first
    | omega
    | rfl
    | (rw [← List.getElem?_eq_getElem hd]; congr 1; omega)

theorem naiveWrite_getElem? (buf data : List α) {p c : Nat} (hl : buf.length = c)
    (hp : p < c) :
    ∀ m, m ≤ c → m ≤ data.length → ∀ j,
      (naiveWrite buf p c data m)[j]? = writeSlot buf p c data m j := by
  intro m
  induction m with
  | zero =>
    intro _ _ j
    unfold writeSlot
    rw [if_neg (by omega), if_neg (by omega)]
    rfl
  | succ m ih =>
    intro hm hd j
    have hx : data[m]? = some data[m] := List.getElem?_eq_getElem (by omega)
    have hlt : (p + m) % c < (naiveWrite buf p c data m).length := by
      rw [naiveWrite_length, hl]
      exact Nat.mod_lt _ (by omega)
    rw [writeSlot_succ _ _ hp (by omega) (by omega)]
    unfold naiveWrite
    rw [hx]
    simp only []
    rw [List.getElem?_set, if_pos hlt, ih (by omega) (by omega)]

/-- C7: on a valid state with cursor `p` and storage `s`, with
`m = min n capacity`, `write(data, n)` returns and its storage holds `data[i]`
at index `(p + i) % capacity` for every `i < m`, every index not of that form
holds what it held in `s`, and the storage is that of the loop
`storage[(p + i) % capacity] := data[i]`, `i = 0, ..., m - 1`. -/
theorem write_placement (s : ringbuffer α) (hv : Valid s) (data : List α) (n : Nat)
    (hd : n ≤ data.length) :
    ∃ s', write s data n = .ok (s', min n s.size) ∧
      (∀ i, i < min n s.size →
        s'.buffer[(s.write_pos + i) % s.size]? = data[i]?) ∧
      (∀ j, (∀ i, i < min n s.size → j ≠ (s.write_pos + i) % s.size) →
        s'.buffer[j]? = s.buffer[j]?) ∧
      s'.buffer = naiveWrite s.buffer s.write_pos s.size data (min n s.size) := by
  have hm : min n s.size ≤ s.size := min_le_right _ _
  have hmn : min n s.size ≤ n := min_le_left _ _
  obtain ⟨b, hw, hbl, hb⟩ := write_spec s hv data n (by omega)
  have hp := hv.2.2.1
  refine ⟨_, hw, ?_, ?_, ?_⟩
  · intro i hi
    change b[_]? = _
    rw [hb, writeSlot_at _ _ hp hm hi]
  · intro j hj
    change b[_]? = _
    rw [hb, writeSlot_frame _ _ hp hm hj]
  · change b = _
    apply List.ext_getElem?
    intro j
    rw [hb, naiveWrite_getElem? _ _ hv.1 hp _ hm (by omega)]

/-- Witness of C7: capacity 4 with cursor 2 and storage `[5,6,3,4]`, a `write`
of `[7,8,9]` gives the storage `[9,6,7,8]`. -/
theorem write_placement_witness :
    ∃ s', write (⟨[5, 6, 3, 4], 4, 2⟩ : ringbuffer Nat) [7, 8, 9] 3 = .ok (s', 3) ∧
      (∀ i, i < 3 → s'.buffer[(2 + i) % 4]? = [7, 8, 9][i]?) ∧
      (∀ j, (∀ i, i < 3 → j ≠ (2 + i) % 4) → s'.buffer[j]? = [5, 6, 3, 4][j]?) ∧
      s'.buffer = [9, 6, 7, 8] :=
  write_placement ⟨[5, 6, 3, 4], 4, 2⟩ ⟨rfl, by decide, by decide, by norm_num⟩
    [7, 8, 9] 3 (by decide)

/-- C8: for a capacity `c > 0` and a sequence `d` of `m ≤ c` elements, after
construction and one call `write(d, m)`, `read(dest, k)` for every `k ≤ m`
returns `k` and fills `dest[0..k)` with the last `k` elements of `d`, in
order. -/
theorem fresh_window [Zero α] (c : Nat) (h0 : 0 < c) (hc : c < 2 ^ 63) (d : List α)
    (hm : d.length ≤ c) (dest : List α) (k : Nat) (hk : k ≤ d.length)
    (hdest : k ≤ dest.length) :
    ∃ s', write (create c : ringbuffer α) d d.length = .ok (s', d.length) ∧
      read s' dest k = .ok (s', d.drop (d.length - k) ++ dest.drop k, k) := by
  have hv := valid_create (α := α) c h0 hc
  have hsz : (create c : ringbuffer α).size = c := rfl
  have hmin : min d.length c = d.length := min_eq_left hm
  obtain ⟨s', hw, hv', hs', hr⟩ :=
    write_recent (create c) hv [] d d.length (by rw [hsz, hmin]) (recent_nil _)
  rw [hsz, hmin, List.nil_append, List.take_length] at hr
  rw [hsz, hmin] at hw
  rw [hsz] at hs'
  exact ⟨s', hw, read_recent s' hv' d dest k (by omega) hk hdest hr⟩

/-- Witness of C8: capacity 5, `write [1,2,3,4,5]`, `read(3)` gives
`[3,4,5]`. -/
theorem fresh_window_witness :
    ∃ s', write (create 5 : ringbuffer Nat) [1, 2, 3, 4, 5] 5 = .ok (s', 5) ∧
      read s' [0, 0, 0] 3 = .ok (s', [3, 4, 5], 3) :=
  fresh_window 5 (by decide) (by norm_num) [1, 2, 3, 4, 5] (by decide) [0, 0, 0] 3
    (by decide) (by decide)

/-- C9: on a valid state, `read(dest, n)` returns and the object after the call
has the capacity, the cursor and the storage it had before; a second
`read` with the same `n`, into the same or into another array, returns the
same count and the same elements. -/
theorem read_repeatable (s : ringbuffer α) (hv : Valid s) (dest : List α) (n : Nat)
    (hd : min n s.size ≤ dest.length) :
    ∃ s' d, read s dest n = .ok (s', d, min n s.size) ∧
      s'.size = s.size ∧ s'.write_pos = s.write_pos ∧ s'.buffer = s.buffer ∧
      read s' d n = .ok (s', d, min n s.size) ∧
      ∀ dest2 : List α, min n s.size ≤ dest2.length →
        ∃ d2, read s' dest2 n = .ok (s', d2, min n s.size) ∧
          d2.take (min n s.size) = d.take (min n s.size) := by
  obtain ⟨d, hr, hdl, hslot⟩ := read_spec s hv dest n hd
  refine ⟨s, d, hr, rfl, rfl, rfl, ?_, ?_⟩
  · obtain ⟨d1, hr1, _, hslot1⟩ := read_spec s hv d n (by omega)
    have : d1 = d := by
      apply List.ext_getElem?
      intro i
      rw [hslot1, hslot]
      by_cases hi : i < min n s.size
      · unfold readSlot
        rw [if_pos hi, if_pos hi]
      · have h := hslot i
        unfold readSlot at h ⊢
        rw [if_neg hi] at h ⊢
        rw [if_neg hi]
        exact h
    rw [hr1, this]
  · intro dest2 hd2
    obtain ⟨d2, hr2, _, hslot2⟩ := read_spec s hv dest2 n hd2
    refine ⟨d2, hr2, ?_⟩
    apply List.ext_getElem?
    intro i
    rw [List.getElem?_take, List.getElem?_take, hslot2, hslot]
    unfold readSlot
    split_ifs <;> rfl

/-- Witness of C9: capacity 4 with cursor 2 and storage `[5,6,3,4]`,
`read(3)`. -/
theorem read_repeatable_witness :
    ∃ s' d, read (⟨[5, 6, 3, 4], 4, 2⟩ : ringbuffer Nat) [0, 0, 0] 3 = .ok (s', d, 3) ∧
      s'.size = 4 ∧ s'.write_pos = 2 ∧ s'.buffer = [5, 6, 3, 4] ∧
      read s' d 3 = .ok (s', d, 3) ∧
      ∀ dest2 : List Nat, 3 ≤ dest2.length →
        ∃ d2, read s' dest2 3 = .ok (s', d2, 3) ∧ d2.take 3 = d.take 3 :=
  read_repeatable ⟨[5, 6, 3, 4], 4, 2⟩ ⟨rfl, by decide, by decide, by norm_num⟩
    [0, 0, 0] 3 (by decide)

/-- C10: on a valid state, `write(data, 0)` returns 0 and leaves the object
(storage and `write_pos`) as it was, and `read(dest, 0)` returns 0 and leaves
the object and `dest` as they were. -/
theorem zero_noop (s : ringbuffer α) (hv : Valid s) (data dest : List α) :
    write s data 0 = .ok (s, 0) ∧ read s dest 0 = .ok (s, dest, 0) := by
  constructor
  · unfold write
    simp only []
    rw [Nat.zero_min, if_pos rfl]
  · obtain ⟨d, hr, _, hslot⟩ := read_spec s hv dest 0 (by rw [Nat.zero_min]; omega)
    rw [Nat.zero_min] at hr hslot
    have hdd : d = dest := by
      apply List.ext_getElem?
      intro i
      rw [hslot]
      unfold readSlot
      rw [if_neg (by omega)]
    rw [hr, hdd]

/-- Witness of C10: capacity 4 with cursor 2 and storage `[5,6,3,4]`. -/
theorem zero_noop_witness :
    write (⟨[5, 6, 3, 4], 4, 2⟩ : ringbuffer Nat) [1, 2] 0 = .ok (⟨[5, 6, 3, 4], 4, 2⟩, 0) ∧
    read (⟨[5, 6, 3, 4], 4, 2⟩ : ringbuffer Nat) [7, 7] 0
      = .ok (⟨[5, 6, 3, 4], 4, 2⟩, [7, 7], 0) :=
  zero_noop ⟨[5, 6, 3, 4], 4, 2⟩ ⟨rfl, by decide, by decide, by norm_num⟩ [1, 2] [7, 7]

/-! ## `clear` -/

theorem valid_cleared [Zero α] (s : ringbuffer α) (hv : Valid s) :
    Valid (⟨List.replicate s.size 0, s.size, s.write_pos⟩ : ringbuffer α) :=
  ⟨List.length_replicate _ _, hv.2.1, hv.2.2.1, hv.2.2.2⟩

/-- A storage of zeros ends with any number of zeros. -/
theorem recent_zeros [Zero α] (s : ringbuffer α) (hv : Valid s)
    (hz : s.buffer = List.replicate s.size 0) (k : Nat) :
    Recent s (List.replicate k (0 : α)) := by
  intro a ha hac
  rw [List.length_replicate] at ha
  have hlt : slotOfAge s.write_pos s.size a < s.size := by
    have hp := hv.2.2.1
    unfold slotOfAge
    split_ifs <;> omega
  rw [hz, List.getElem?_replicate, if_pos hlt, List.getElem?_replicate,
    List.length_replicate, if_pos (by omega)]

/-- C11: on a valid state with cursor `p` and capacity `c`, `clear()` returns
and leaves every storage slot zero, the cursor at `p` and the capacity `c`;
`read(dest, k)` right after it, for `k ≤ c`, returns `k` and fills
`dest[0..k)` with zeros. -/
theorem clear_zeroes [Zero α] (s : ringbuffer α) (hv : Valid s) (dest : List α)
    (k : Nat) (hk : k ≤ s.size) (hd : k ≤ dest.length) :
    ∃ s', clear s = .ok s' ∧ s'.buffer = List.replicate s.size 0 ∧
      (∀ j, j < s.size → s'.buffer[j]? = some 0) ∧
      s'.write_pos = s.write_pos ∧ s'.size = s.size ∧
      read s' dest k = .ok (s', List.replicate k 0 ++ dest.drop k, k) := by
  refine ⟨_, clear_spec s hv, rfl, ?_, rfl, rfl, ?_⟩
  · intro j hj
    change (List.replicate s.size (0 : α))[j]? = _
    rw [List.getElem?_replicate, if_pos hj]
  · have hv' := valid_cleared s hv
    have h := read_recent _ hv' (List.replicate k (0 : α)) dest k hk
      (by rw [List.length_replicate]) hd (recent_zeros _ hv' rfl k)
    rw [List.length_replicate, Nat.sub_self, List.drop_zero] at h
    exact h

/-- Witness of C11: capacity 4 with cursor 2 and storage `[5,6,3,4]`; after
`clear()`, `read(4)` gives `[0,0,0,0]`. -/
theorem clear_zeroes_witness :
    ∃ s', clear (⟨[5, 6, 3, 4], 4, 2⟩ : ringbuffer Nat) = .ok s' ∧
      s'.buffer = [0, 0, 0, 0] ∧
      (∀ j, j < 4 → s'.buffer[j]? = some 0) ∧
      s'.write_pos = 2 ∧ s'.size = 4 ∧
      read s' [7, 7, 7, 7] 4 = .ok (s', [0, 0, 0, 0], 4) :=
  clear_zeroes ⟨[5, 6, 3, 4], 4, 2⟩ ⟨rfl, by decide, by decide, by norm_num⟩
    [7, 7, 7, 7] 4 (by decide) (by decide)

/-- C12: on a valid state with cursor `p` and capacity `c`, `clear()` followed
by `write(data, n)` with `n ≤ c` leaves `data[i]` at index `(p + i) % c` for
`i < n`, zero in every other slot, and the cursor at `(p + n) % c`; a
`write([x], 1)` after `clear()` puts `x` at index `p` and leaves every other
slot zero, so index 0 holds it only when `p = 0`. -/
theorem clear_then_write [Zero α] (s : ringbuffer α) (hv : Valid s) (data : List α)
    (n : Nat) (hn : n ≤ s.size) (hd : n ≤ data.length) (x : α) :
    ∃ s1, clear s = .ok s1 ∧
      (∃ s2, write s1 data n = .ok (s2, n) ∧
        (∀ i, i < n → s2.buffer[(s.write_pos + i) % s.size]? = data[i]?) ∧
        (∀ j, j < s.size → (∀ i, i < n → j ≠ (s.write_pos + i) % s.size) →
          s2.buffer[j]? = some 0) ∧
        s2.write_pos = (s.write_pos + n) % s.size) ∧
      (∃ s3, write s1 [x] 1 = .ok (s3, 1) ∧
        s3.buffer[s.write_pos]? = some x ∧
        (∀ j, j < s.size → j ≠ s.write_pos → s3.buffer[j]? = some 0) ∧
        (s.write_pos ≠ 0 → s3.buffer[0]? = some 0)) := by
  have hv1 := valid_cleared s hv
  have hp := hv.2.2.1
  have hpos := hv.2.1
  refine ⟨_, clear_spec s hv, ?_, ?_⟩
  · obtain ⟨b, hw, _, hb⟩ := write_spec _ hv1 data n (by
      change min n s.size ≤ _
      rw [min_eq_left hn]
      exact hd)
    change write _ data n = .ok (⟨b, s.size, (s.write_pos + min n s.size) % s.size⟩,
      min n s.size) at hw
    change ∀ j, b[j]? = writeSlot (List.replicate s.size 0) s.write_pos s.size data
      (min n s.size) j at hb
    rw [min_eq_left hn] at hw hb
    refine ⟨_, hw, ?_, ?_, rfl⟩
    · intro i hi
      change b[_]? = _
      rw [hb, writeSlot_at _ _ hp hn hi]
    · intro j hj hne
      change b[_]? = _
      rw [hb, writeSlot_frame _ _ hp hn hne, List.getElem?_replicate, if_pos hj]
  · obtain ⟨b, hw, _, hb⟩ := write_spec _ hv1 [x] 1 (by
      change min 1 s.size ≤ _
      rw [min_eq_left (by omega)]
      exact le_refl _)
    change write _ [x] 1 = .ok (⟨b, s.size, (s.write_pos + min 1 s.size) % s.size⟩,
      min 1 s.size) at hw
    change ∀ j, b[j]? = writeSlot (List.replicate s.size 0) s.write_pos s.size [x]
      (min 1 s.size) j at hb
    rw [min_eq_left (by omega : 1 ≤ s.size)] at hw hb
    have hfar : ∀ j, j < s.size → j ≠ s.write_pos → b[j]? = some 0 := by
      intro j hj hne
      rw [hb]
      unfold writeSlot
      rw [if_neg (by omega), if_neg (by omega), List.getElem?_replicate, if_pos hj]
    refine ⟨_, hw, ?_, hfar, ?_⟩
    · change b[_]? = _
      rw [hb]
      unfold writeSlot
      rw [if_pos (by omega), Nat.sub_self]
      rfl
    · intro h0
      exact hfar 0 hpos (by omega)

/-- Witness of C12: capacity 4 with cursor 2 and storage `[5,6,3,4]`; `clear()`
then `write([9], 1)` puts 9 at index 2. -/
theorem clear_then_write_witness :
    ∃ s1, clear (⟨[5, 6, 3, 4], 4, 2⟩ : ringbuffer Nat) = .ok s1 ∧
      (∃ s2, write s1 [7, 8, 9] 3 = .ok (s2, 3) ∧
        (∀ i, i < 3 → s2.buffer[(2 + i) % 4]? = [7, 8, 9][i]?) ∧
        (∀ j, j < 4 → (∀ i, i < 3 → j ≠ (2 + i) % 4) → s2.buffer[j]? = some 0) ∧
        s2.write_pos = (2 + 3) % 4) ∧
      (∃ s3, write s1 [9] 1 = .ok (s3, 1) ∧
        s3.buffer[2]? = some 9 ∧
        (∀ j, j < 4 → j ≠ 2 → s3.buffer[j]? = some 0) ∧
        (2 ≠ 0 → s3.buffer[0]? = some 0)) :=
  clear_then_write ⟨[5, 6, 3, 4], 4, 2⟩ ⟨rfl, by decide, by decide, by norm_num⟩
    [7, 8, 9] 3 (by decide) (by decide) 9

theorem zero_window [Zero α] (s : ringbuffer α) (hv : Valid s)
    (hz : s.buffer = List.replicate s.size 0) (calls : List (List α × Nat))
    (hcalls : ∀ dn ∈ calls, dn.2 ≤ dn.1.length) (dest : List α) (k : Nat)
    (hmk : (written s.size calls).length ≤ k) (hk : k ≤ s.size)
    (hd : k ≤ dest.length) :
    ∃ s', writeAll s calls = .ok s' ∧
      read s' dest k
        = .ok (s', List.replicate (k - (written s.size calls).length) 0
            ++ written s.size calls ++ dest.drop k, k) := by
  obtain ⟨s', hw, hv', hs', hr⟩ := writeAll_recent calls s
    (List.replicate (k - (written s.size calls).length) 0) hv (recent_zeros s hv hz _)
    (fun dn hdn => le_trans (min_le_left _ _) (hcalls dn hdn))
  have h := read_recent s' hv' _ dest k (by omega)
    (by rw [List.length_append, List.length_replicate]; omega) hd hr
  rw [List.length_append, List.length_replicate,
    Nat.sub_add_cancel hmk, Nat.sub_self, List.drop_zero] at h
  exact ⟨s', hw, h⟩

/-- C13: for a capacity `c > 0`, starting from a freshly constructed buffer or
from a valid state right after `clear()`, after `write` calls that stored the
stream `w` of `m` elements, `read(dest, k)` for `m ≤ k ≤ c` returns `k` and
fills `dest[0..k)` with `k - m` zeros followed by the `m` elements of `w` in
their original order. -/
theorem uninitialised_window [Zero α] (c : Nat) (h0 : 0 < c) (hc : c < 2 ^ 63)
    (s : ringbuffer α) (hv : Valid s) (hs : s.size = c) (calls : List (List α × Nat))
    (hcalls : ∀ dn ∈ calls, dn.2 ≤ dn.1.length) (dest : List α) (k : Nat)
    (hmk : (written c calls).length ≤ k) (hk : k ≤ c) (hd : k ≤ dest.length) :
    (∃ s', writeAll (create c) calls = .ok s' ∧
      read s' dest k
        = .ok (s', List.replicate (k - (written c calls).length) 0
            ++ written c calls ++ dest.drop k, k)) ∧
    (∃ s1 s', clear s = .ok s1 ∧ writeAll s1 calls = .ok s' ∧
      read s' dest k
        = .ok (s', List.replicate (k - (written c calls).length) 0
            ++ written c calls ++ dest.drop k, k)) := by
  constructor
  · exact zero_window (create c) (valid_create c h0 hc) rfl calls hcalls dest k hmk hk hd
  · subst hs
    obtain ⟨s', hw, hr⟩ := zero_window _ (valid_cleared s hv) rfl calls hcalls dest k
      hmk hk hd
    exact ⟨_, s', clear_spec s hv, hw, hr⟩

/-- Witness of C13: capacity 4, two writes storing `[1,2]` and `[3]`, then
`read(4)` gives `[0,1,2,3]`, from a fresh buffer and from a cleared one with
cursor 2. -/
theorem uninitialised_window_witness :
    (∃ s', writeAll (create 4 : ringbuffer Nat) [([1, 2], 2), ([3], 1)] = .ok s' ∧
      read s' [7, 7, 7, 7] 4 = .ok (s', [0, 1, 2, 3], 4)) ∧
    (∃ s1 s', clear (⟨[5, 6, 3, 4], 4, 2⟩ : ringbuffer Nat) = .ok s1 ∧
      writeAll s1 [([1, 2], 2), ([3], 1)] = .ok s' ∧
      read s' [7, 7, 7, 7] 4 = .ok (s', [0, 1, 2, 3], 4)) :=
  uninitialised_window 4 (by decide) (by norm_num) ⟨[5, 6, 3, 4], 4, 2⟩
    ⟨rfl, by decide, by decide, by norm_num⟩ rfl [([1, 2], 2), ([3], 1)] (by decide)
    [7, 7, 7, 7] 4 (by decide) (by decide) (by decide)

/-! ## Capacity zero -/

/-- C14 (counterexample): on the instance constructed with capacity 0,
`write([1,2,3], 3)` returns the count 0; it evaluates no remainder by zero. -/
theorem zero_capacity_write_returns :
    write (create 0 : ringbuffer Nat) [1, 2, 3] 3 = .ok (create 0, 0) ∧
    write (create 0 : ringbuffer Nat) [1, 2, 3] 3 ≠ .error .remByZero :=
  ⟨rfl, by intro h; cases h⟩

theorem write_zero_size (s : ringbuffer α) (hs : s.size = 0) (data : List α) (n : Nat) :
    write s data n = .ok (s, 0) := by
  unfold write
  have h : min n s.size = 0 := by
    rw [hs]
    exact Nat.min_zero n
  simp only []
  rw [h, if_pos rfl]

theorem writeAll_zero_size (calls : List (List α × Nat)) :
    ∀ s : ringbuffer α, s.size = 0 → writeAll s calls = .ok s := by
  induction calls with
  | nil =>
    intro s _
    rfl
  | cons dn calls ih =>
    intro s hs
    obtain ⟨data, n⟩ := dn
    simp only [writeAll, write_zero_size s hs data n, bind, Except.bind]
    exact ih s hs

/-- C14 (amended): construction with capacity 0 gives the instance with empty
storage and cursor 0; on it `write(data, n)` returns the count 0 for every `n`
and leaves the instance as it was, and so does every sequence of `write`
calls. -/
theorem zero_capacity [Zero α] (data : List α) (n : Nat)
    (calls : List (List α × Nat)) :
    (create 0 : ringbuffer α) = ⟨[], 0, 0⟩ ∧
    write (create 0 : ringbuffer α) data n = .ok (create 0, 0) ∧
    writeAll (create 0 : ringbuffer α) calls = .ok (create 0) :=
  ⟨rfl, write_zero_size _ rfl data n, writeAll_zero_size calls _ rfl⟩

/-! ## The start index of `read` and the element-by-element loop -/

theorem readPos_eq_of_le (s : ringbuffer α) (hv : Valid s) (n : Nat)
    (hn : n ≤ s.write_pos + s.size) :
    readPos s n = (s.write_pos + s.size - n) % s.size := by
  obtain ⟨_, _, hp, hC⟩ := hv
  unfold readPos
  rw [size_add_eq (by omega), size_sub_eq (by omega) (by omega)]

theorem naiveRead_length (buf dest : List α) (rp c : Nat) :
    ∀ m, (naiveRead buf rp c dest m).length = dest.length := by
  intro m
  induction m with
  | zero => rfl
  | succ m ih =>
    unfold naiveRead
    split
    · rw [List.length_set, ih]
    · exact ih

theorem readSlot_succ (buf dest : List α) {rp c m : Nat} (hrp : rp < c) (hm : m < c)
    (i : Nat) :
    readSlot buf rp c dest (m + 1) i
      = if m = i then buf[(rp + m) % c]? else readSlot buf rp c dest m i := by
  unfold readSlot
  by_cases hmi : m = i
  · subst hmi
    rw [if_pos rfl, if_pos (by omega), mod_wrap (by omega)]
    split_ifs <;> rfl
  · rw [if_neg hmi]
    by_cases him : i < m
    · rw [if_pos (by omega), if_pos him]
    · rw [if_neg (by omega), if_neg him]

theorem naiveRead_getElem? (buf dest : List α) {rp c : Nat} (hl : buf.length = c)
    (hrp : rp < c) :
    ∀ m, m ≤ c → m ≤ dest.length → ∀ i,
      (naiveRead buf rp c dest m)[i]? = readSlot buf rp c dest m i := by
  intro m
  induction m with
  | zero =>
    intro _ _ i
    unfold readSlot
    rw [if_neg (by omega)]
    rfl
  | succ m ih =>
    intro hm hd i
    have hidx : (rp + m) % c < buf.length := by
      rw [hl]
      exact Nat.mod_lt _ (by omega)
    have hx : buf[(rp + m) % c]? = some buf[(rp + m) % c] := List.getElem?_eq_getElem hidx
    have hlt : m < (naiveRead buf rp c dest m).length := by
      rw [naiveRead_length]
      omega
    rw [readSlot_succ _ _ hrp (by omega)]
    unfold naiveRead
    rw [hx]
    simp only []
    rw [List.getElem?_set, if_pos hlt, ih (by omega) (by omega)]

/-- C16: on a valid state with cursor `p`, storage `s` and capacity `c`, for
`n ≤ p + c` the start index of `read(dest, n)` is `(p + c - n) % c`, the call
returns `m = min n c` and sets `dest[i]` to `s[((p + c - n) % c + i) % c]` for
every `i < m`, leaving the rest of `dest`; the result is that of the loop
`dest[i] := s[(start + i) % c]`, `i = 0, ..., m - 1`. -/
theorem read_position (s : ringbuffer α) (hv : Valid s) (dest : List α) (n : Nat)
    (hn : n ≤ s.write_pos + s.size) (hd : min n s.size ≤ dest.length) :
    readPos s n = (s.write_pos + s.size - n) % s.size ∧
    ∃ d, read s dest n = .ok (s, d, min n s.size) ∧
      (∀ i, i < min n s.size →
        d[i]? = s.buffer[((s.write_pos + s.size - n) % s.size + i) % s.size]?) ∧
      (∀ i, min n s.size ≤ i → d[i]? = dest[i]?) ∧
      d = naiveRead s.buffer ((s.write_pos + s.size - n) % s.size) s.size dest
        (min n s.size) := by
  have hrp := readPos_eq_of_le s hv n hn
  have hlt := readPos_lt s hv n
  have hm : min n s.size ≤ s.size := min_le_right _ _
  obtain ⟨d, hr, _, hslot⟩ := read_spec s hv dest n hd
  rw [hrp] at hslot hlt
  refine ⟨hrp, d, hr, ?_, ?_, ?_⟩
  · intro i hi
    rw [hslot, readSlot_mod _ _ hlt hm hi]
  · intro i hi
    rw [hslot]
    unfold readSlot
    rw [if_neg (by omega)]
  · apply List.ext_getElem?
    intro i
    rw [hslot, naiveRead_getElem? _ _ hv.1 hlt _ hm hd]

/-- Witness of C16: capacity 4 with cursor 2 and storage `[5,6,3,4]`;
`read(5)` starts at index `(2 + 4 - 5) % 4 = 1` and copies `[6,3,4,5]`. -/
theorem read_position_witness :
    readPos (⟨[5, 6, 3, 4], 4, 2⟩ : ringbuffer Nat) 5 = (2 + 4 - 5) % 4 ∧
    ∃ d, read (⟨[5, 6, 3, 4], 4, 2⟩ : ringbuffer Nat) [0, 0, 0, 0, 0] 5
        = .ok (⟨[5, 6, 3, 4], 4, 2⟩, d, 4) ∧
      (∀ i, i < 4 → d[i]? = [5, 6, 3, 4][((2 + 4 - 5) % 4 + i) % 4]?) ∧
      (∀ i, 4 ≤ i → d[i]? = [0, 0, 0, 0, 0][i]?) ∧
      d = [6, 3, 4, 5, 0] :=
  read_position ⟨[5, 6, 3, 4], 4, 2⟩ ⟨rfl, by decide, by decide, by norm_num⟩
    [0, 0, 0, 0, 0] 5 (by decide) (by decide)

/-! ## Provenance of the stored values -/

theorem provenance_mono [Zero α] {c : Nat} {pre : List (Op α)} (ops : List (Op α))
    {x : α} (h : Provenance c pre x) : Provenance c (pre ++ ops) x := by
  rcases h with h | ⟨data, n, i, hmem, hi, hx⟩
  · exact Or.inl h
  · exact Or.inr ⟨data, n, i, List.mem_append_left _ hmem, hi, hx⟩

theorem step_provenance [Zero α] (s : ringbuffer α) (hv : Valid s) (op : Op α)
    (hop : op.Fits s.size) (pre : List (Op α))
    (hinv : ∀ (j : Nat) (x : α), s.buffer[j]? = some x → Provenance s.size pre x) :
    ∃ s', step s op = .ok s' ∧ Valid s' ∧ s'.size = s.size ∧
      ∀ (j : Nat) (x : α), s'.buffer[j]? = some x → Provenance s.size (pre ++ [op]) x := by
  cases op with
  | write data n =>
    obtain ⟨s', hw, hv', hs', _⟩ := write_recent s hv [] data n hop (recent_nil s)
    obtain ⟨b, hwb, _, hb⟩ := write_spec s hv data n hop
    have hbuf : s'.buffer = b := by
      have h := hw.symm.trans hwb
      injection h with h
      injection h with h
      rw [h]
    refine ⟨s', by simp only [step, hw, bind, Except.bind], hv', hs', ?_⟩
    intro j x hx
    rw [hbuf, hb] at hx
    have hmem : Op.write data n ∈ pre ++ [Op.write data n] :=
      List.mem_append_right _ (List.mem_singleton_self _)
    have hp := hv.2.2.1
    unfold writeSlot at hx
    split_ifs at hx with h1 h2
    · exact Or.inr ⟨data, n, j - s.write_pos, hmem, by omega, hx⟩
    · exact Or.inr ⟨data, n, j + s.size - s.write_pos, hmem, by omega, hx⟩
    · exact provenance_mono _ (hinv j x hx)
  | read dest n =>
    obtain ⟨d, hr, _, _⟩ := read_spec s hv dest n hop
    refine ⟨s, by simp only [step, hr, bind, Except.bind], hv, rfl, ?_⟩
    intro j x hx
    exact provenance_mono _ (hinv j x hx)
  | clear =>
    refine ⟨⟨List.replicate s.size 0, s.size, s.write_pos⟩,
      by simp only [step, clear_spec s hv], valid_cleared s hv, rfl, ?_⟩
    intro j x hx
    left
    change (List.replicate s.size (0 : α))[j]? = some x at hx
    rw [List.getElem?_replicate] at hx
    split_ifs at hx
    injection hx with hx
    exact hx.symm

theorem run_provenance [Zero α] (ops : List (Op α)) :
    ∀ (s : ringbuffer α) (pre : List (Op α)), Valid s →
      (∀ op ∈ ops, Op.Fits s.size op) →
      (∀ (j : Nat) (x : α), s.buffer[j]? = some x → Provenance s.size pre x) →
      ∃ s', run s ops = .ok s' ∧
        ∀ (j : Nat) (x : α), s'.buffer[j]? = some x → Provenance s.size (pre ++ ops) x := by
  induction ops with
  | nil =>
    intro s pre _ _ hinv
    refine ⟨s, rfl, ?_⟩
    rw [List.append_nil]
    exact hinv
  | cons op ops ih =>
    intro s pre hv hops hinv
    obtain ⟨s1, h1, hv1, hs1, hinv1⟩ :=
      step_provenance s hv op (hops op (List.mem_cons_self _ _)) pre hinv
    rw [← hs1] at hinv1
    obtain ⟨s2, h2, hinv2⟩ := ih s1 (pre ++ [op]) hv1 (by
      intro o ho
      rw [hs1]
      exact hops o (List.mem_cons_of_mem _ ho)) hinv1
    refine ⟨s2, ?_, ?_⟩
    · simp only [run, h1, bind, Except.bind]
      exact h2
    · rw [hs1, List.append_assoc, List.singleton_append] at hinv2
      exact hinv2

/-- C17: for a capacity `c > 0`, every sequence of `write`, `read` and `clear`
calls from construction returns, and in the state it reaches every storage
slot holds zero or a value `data[i]`, `i < min n c`, of a call
`write(data, n)` of the sequence; elements `data[i]` with `i ≥ c` are not a
source of any slot. -/
theorem storage_provenance [Zero α] (c : Nat) (h0 : 0 < c) (hc : c < 2 ^ 63)
    (ops : List (Op α)) (hops : ∀ op ∈ ops, Op.Fits c op) :
    ∃ s', run (create c : ringbuffer α) ops = .ok s' ∧
      ∀ (j : Nat) (x : α), s'.buffer[j]? = some x → Provenance c ops x := by
  obtain ⟨s', hr, hinv⟩ := run_provenance ops (create c) [] (valid_create c h0 hc) hops (by
    intro j x hx
    left
    change (List.replicate c (0 : α))[j]? = some x at hx
    rw [List.getElem?_replicate] at hx
    split_ifs at hx
    injection hx with hx
    exact hx.symm)
  rw [List.nil_append] at hinv
  exact ⟨s', hr, hinv⟩

/-- Witness of C17: capacity 3, an oversized `write`, a `read`, `clear()` and a
`write` of one element. -/
theorem storage_provenance_witness :
    ∃ s', run (create 3 : ringbuffer Nat)
        [.write [1, 2, 3, 4, 5] 5, .read [0, 0] 2, .clear, .write [7] 1] = .ok s' ∧
      ∀ (j : Nat) (x : Nat), s'.buffer[j]? = some x →
        Provenance 3 [.write [1, 2, 3, 4, 5] 5, .read [0, 0] 2, .clear, .write [7] 1] x :=
  storage_provenance 3 (by decide) (by norm_num) _ (by decide)

/-! ## Bounds of the chunk arithmetic -/

theorem chunk_split {c pos m : Nat} (hc : c < 2 ^ 63) (hpos : pos < c) (hm : m ≤ c) :
    size_add pos m = pos + m ∧
    (c ≤ size_add pos m →
      size_sub c pos = c - pos ∧ 1 ≤ size_sub c pos ∧ size_sub c pos ≤ m ∧
      size_sub m (size_sub c pos) = m - size_sub c pos ∧
      size_sub c pos + size_sub m (size_sub c pos) = m ∧
      size_sub m (size_sub c pos) ≤ pos) := by
  have hadd : size_add pos m = pos + m := size_add_eq (by omega)
  refine ⟨hadd, ?_⟩
  intro h
  rw [hadd] at h
  have hfc : size_sub c pos = c - pos := size_sub_eq (by omega) (by omega)
  have hrest : size_sub m (c - pos) = m - (c - pos) := size_sub_eq (by omega) (by omega)
  rw [hfc, hrest]
  omega

/-- C18: on a valid state (capacity `c` with `0 < c < 2 ^ 63`, cursor below
`c`) and for every `n`, with `size_t` arithmetic modulo `2 ^ 64`: `write` with
a `data` of exactly `min n c` elements and `read` with a `dest` of exactly
`min n c` elements return, so no `memcpy` leaves the storage of `c` slots or
the `min n c` elements of `data` / `dest`; the start index of `read` is below
`c` whatever `n` is; `pos + min n c` does not wrap; and in the split branch
`first_chunk = c - pos` is at least 1 and at most `min n c`, the second length
does not wrap, the two lengths add up to `min n c`, and the head chunk ends at
or before `pos`, where the tail chunk starts. -/
theorem chunk_bounds (s : ringbuffer α) (hv : Valid s) (n : Nat) (data dest : List α)
    (hdata : data.length = min n s.size) (hdest : dest.length = min n s.size) :
    (∃ s', write s data n = .ok (s', min n s.size) ∧ s'.buffer.length = s.size ∧
      s'.write_pos < s.size) ∧
    (∃ d, read s dest n = .ok (s, d, min n s.size) ∧ d.length = min n s.size) ∧
    readPos s n < s.size ∧
    ∀ pos, pos = s.write_pos ∨ pos = readPos s n →
      size_add pos (min n s.size) = pos + min n s.size ∧
      (s.size ≤ size_add pos (min n s.size) →
        size_sub s.size pos = s.size - pos ∧ 1 ≤ size_sub s.size pos ∧
        size_sub s.size pos ≤ min n s.size ∧
        size_sub (min n s.size) (size_sub s.size pos)
          = min n s.size - size_sub s.size pos ∧
        size_sub s.size pos + size_sub (min n s.size) (size_sub s.size pos)
          = min n s.size ∧
        size_sub (min n s.size) (size_sub s.size pos) ≤ pos) := by
  have hm : min n s.size ≤ s.size := min_le_right _ _
  have hrp := readPos_lt s hv n
  obtain ⟨b, hw, hbl, _⟩ := write_spec s hv data n (by omega)
  obtain ⟨d, hr, hdl, _⟩ := read_spec s hv dest n (by omega)
  refine ⟨⟨_, hw, hbl, Nat.mod_lt _ hv.2.1⟩, ⟨d, hr, by omega⟩, hrp, ?_⟩
  intro pos hpos
  have hlt : pos < s.size := by
    rcases hpos with h | h
    · rw [h]
      exact hv.2.2.1
    · rw [h]
      exact hrp
  exact chunk_split hv.2.2.2 hlt hm

/-- Witness of C18: capacity 4 with cursor 2 and `n = 7 > 2 + 4`, where
`write_pos + size - n` wraps below zero. -/
theorem chunk_bounds_witness :
    (∃ s', write (⟨[5, 6, 3, 4], 4, 2⟩ : ringbuffer Nat) [1, 2, 3, 4] 7 = .ok (s', 4) ∧
      s'.buffer.length = 4 ∧ s'.write_pos < 4) ∧
    (∃ d, read (⟨[5, 6, 3, 4], 4, 2⟩ : ringbuffer Nat) [0, 0, 0, 0] 7
        = .ok (⟨[5, 6, 3, 4], 4, 2⟩, d, 4) ∧ d.length = 4) ∧
    readPos (⟨[5, 6, 3, 4], 4, 2⟩ : ringbuffer Nat) 7 < 4 :=
  ⟨(chunk_bounds ⟨[5, 6, 3, 4], 4, 2⟩ ⟨rfl, by decide, by decide, by norm_num⟩ 7
      [1, 2, 3, 4] [0, 0, 0, 0] (by decide) (by decide)).1,
    (chunk_bounds ⟨[5, 6, 3, 4], 4, 2⟩ ⟨rfl, by decide, by decide, by norm_num⟩ 7
      [1, 2, 3, 4] [0, 0, 0, 0] (by decide) (by decide)).2.1,
    (chunk_bounds ⟨[5, 6, 3, 4], 4, 2⟩ ⟨rfl, by decide, by decide, by norm_num⟩ 7
      [1, 2, 3, 4] [0, 0, 0, 0] (by decide) (by decide)).2.2.1⟩

/-! ## Two writes in a row -/

theorem writeSlot_comp (buf b1 a b : List α) {p c : Nat} (hp : p < c)
    (hab : a.length + b.length ≤ c)
    (hb1 : ∀ j, b1[j]? = writeSlot buf p c a a.length j) (j : Nat) :
    writeSlot b1 ((p + a.length) % c) c b b.length j
      = writeSlot buf p c (a ++ b) (a.length + b.length) j := by
  unfold writeSlot
  rw [mod_wrap (by omega), hb1]
  unfold writeSlot
  split_ifs <;>
    first
    | omega
    | rfl
    | (rw [List.getElem?_append_left (by omega)])
    | (rw [List.getElem?_append_right (by omega)]; congr 1; omega)

theorem write_after (s1 : ringbuffer α) (hv1 : Valid s1) (buf a b : List α)
    {p : Nat} (hp : p < s1.size) (hab : a.length + b.length ≤ s1.size)
    (hb1 : ∀ j, s1.buffer[j]? = writeSlot buf p s1.size a a.length j)
    (hwp : s1.write_pos = (p + a.length) % s1.size) :
    ∃ b2, write s1 b b.length
        = .ok (⟨b2, s1.size, (p + (a.length + b.length)) % s1.size⟩, b.length) ∧
      b2.length = s1.size ∧
      ∀ j, b2[j]? = writeSlot buf p s1.size (a ++ b) (a.length + b.length) j := by
  have hmin : min b.length s1.size = b.length := min_eq_left (by omega)
  obtain ⟨b2, hw2, hbl2, hb2⟩ := write_spec s1 hv1 b b.length (by rw [hmin])
  rw [hmin, hwp, Nat.mod_add_mod, Nat.add_assoc] at hw2
  rw [hmin, hwp] at hb2
  refine ⟨b2, hw2, hbl2, ?_⟩
  intro j
  rw [hb2, writeSlot_comp buf s1.buffer a b hp hab hb1]

/-- C19: on a valid state, for `a` of `n1` elements and `b` of `n2` elements
with `n1 + n2 ≤ capacity`, `write(a, n1)` followed by `write(b, n2)` gives the
storage, cursor and capacity of the single call `write(a ++ b, n1 + n2)`, and
the returned counts `n1` and `n2` add up to the count `n1 + n2` of the single
call. -/
theorem write_compose (s : ringbuffer α) (hv : Valid s) (a b : List α)
    (hab : a.length + b.length ≤ s.size) :
    ∃ s1 s2, write s a a.length = .ok (s1, a.length) ∧
      write s1 b b.length = .ok (s2, b.length) ∧
      write s (a ++ b) (a.length + b.length) = .ok (s2, a.length + b.length) := by
  have hp := hv.2.2.1
  have hmin1 : min a.length s.size = a.length := min_eq_left (by omega)
  have hmin3 : min (a.length + b.length) s.size = a.length + b.length := min_eq_left hab
  obtain ⟨b1, hw1, hbl1, hb1⟩ := write_spec s hv a a.length (by rw [hmin1])
  obtain ⟨b3, hw3, hbl3, hb3⟩ := write_spec s hv (a ++ b) (a.length + b.length) (by
    rw [hmin3, List.length_append])
  rw [hmin1] at hw1 hb1
  rw [hmin3] at hw3 hb3
  have hv1 : Valid (⟨b1, s.size, (s.write_pos + a.length) % s.size⟩ : ringbuffer α) :=
    ⟨hbl1, hv.2.1, Nat.mod_lt _ hv.2.1, hv.2.2.2⟩
  obtain ⟨b2, hw2, hbl2, hb2⟩ := write_after _ hv1 s.buffer a b hp hab hb1 rfl
  have hbb : b2 = b3 := by
    apply List.ext_getElem?
    intro j
    rw [hb2, hb3]
  refine ⟨_, _, hw1, hw2, ?_⟩
  rw [hw3, hbb]

/-- Witness of C19: capacity 4 with cursor 2, `write [7,8]` then `write [9]`
against `write [7,8,9]`. -/
theorem write_compose_witness :
    ∃ s1 s2, write (⟨[5, 6, 3, 4], 4, 2⟩ : ringbuffer Nat) [7, 8] 2 = .ok (s1, 2) ∧
      write s1 [9] 1 = .ok (s2, 1) ∧
      write (⟨[5, 6, 3, 4], 4, 2⟩ : ringbuffer Nat) [7, 8, 9] 3 = .ok (s2, 3) :=
  write_compose ⟨[5, 6, 3, 4], 4, 2⟩ ⟨rfl, by decide, by decide, by norm_num⟩
    [7, 8] [9] (by decide)

end ringbuffer
